import Mathlib

/-!
Verification of the tree-transform and CLI logic of the pandoc-notion-rs
repository.

The repository's Python code manipulates JSON document trees produced by an
external converter (pandoc).  We embed the JSON value space as an inductive
type and translate each Python function into a Lean function:

* `add_spans_to_json`   from `scripts/span_test.py`
* `process_node` / `modify_json_add_spans` from `test_spans.py`
* `convert_markdown_to_ast` and the CLI input selection from
  `md_to_pandoc_ast.py` (the external pandoc process, the JSON
  parser/serializer of the Python standard library, file reads and the
  stdin state are modelled as explicit parameters, since they are external
  to the repository).

Python dictionaries are modelled as association lists in insertion order
(Python dicts preserve insertion order and have unique keys); `dict.get`
is first-occurrence lookup.  A separate heap model at the end of the file
captures the in-place mutation behaviour of the two transform scripts.
-/

namespace Pandoc

/-- JSON values: scalars, arrays, and objects (ordered key/value lists). -/
inductive Json where
  | null
  | bool (b : Bool)
  | num (n : Int)
  | str (s : String)
  | arr (elems : List Json)
  | obj (fields : List (String × Json))

mutual

def beqJson : Json → Json → Bool
  | .null, .null => true
  | .bool a, .bool b => a == b
  | .num a, .num b => a == b
  | .str a, .str b => a == b
  | .arr xs, .arr ys => beqJsonList xs ys
  | .obj xs, .obj ys => beqJsonFields xs ys
  | _, _ => false

def beqJsonList : List Json → List Json → Bool
  | [], [] => true
  | x :: xs, y :: ys => beqJson x y && beqJsonList xs ys
  | _, _ => false

def beqJsonFields : List (String × Json) → List (String × Json) → Bool
  | [], [] => true
  | (k, v) :: xs, (k', v') :: ys => k == k' && beqJson v v' && beqJsonFields xs ys
  | _, _ => false

end

mutual

theorem beqJson_iff : ∀ a b, beqJson a b = true ↔ a = b
  | .null, b => by cases b <;> simp [beqJson]
  | .bool a, b => by cases b <;> simp [beqJson]
  | .num a, b => by cases b <;> simp [beqJson]
  | .str a, b => by cases b <;> simp [beqJson]
  | .arr xs, b => by
      cases b <;> simp [beqJson]
      exact beqJsonList_iff xs _
  | .obj xs, b => by
      cases b <;> simp [beqJson]
      exact beqJsonFields_iff xs _

theorem beqJsonList_iff : ∀ xs ys, beqJsonList xs ys = true ↔ xs = ys
  | [], [] => by simp [beqJsonList]
  | [], _ :: _ => by simp [beqJsonList]
  | _ :: _, [] => by simp [beqJsonList]
  | x :: xs, y :: ys => by
      simp [beqJsonList, beqJson_iff x y, beqJsonList_iff xs ys]

theorem beqJsonFields_iff : ∀ xs ys, beqJsonFields xs ys = true ↔ xs = ys
  | [], [] => by simp [beqJsonFields]
  | [], _ :: _ => by simp [beqJsonFields]
  | _ :: _, [] => by simp [beqJsonFields]
  | (k, v) :: xs, (k', v') :: ys => by
      simp [beqJsonFields, beqJson_iff v v', beqJsonFields_iff xs ys,
        Prod.ext_iff, and_assoc]

end

instance : DecidableEq Json := fun a b =>
  decidable_of_iff (beqJson a b = true) (beqJson_iff a b)

/-- Python `d.get(k)`: first-occurrence lookup in an ordered dict. -/
def getKey (k : String) : List (String × Json) → Option Json
  | [] => none
  | (k', v) :: rest => if k' = k then some v else getKey k rest

/-- Python `d[k] = v` on an existing key: replace the value in place,
keeping the key's position (Python dicts keep insertion order). -/
def setKey (k : String) (v : Json) : List (String × Json) → List (String × Json)
  | [] => []
  | (k', v') :: rest => if k' = k then (k, v) :: rest else (k', v') :: setKey k v rest

/-- Test `json_data.get("t") == "Str"` from `add_spans_to_json`. -/
def isStrTagged (kvs : List (String × Json)) : Bool :=
  match getKey "t" kvs with
  | some (.str s) => s == "Str"
  | _ => false

/-- Test `item.get("t") == "Space"` (the second designated plain-inline kind). -/
def isSpaceTagged (kvs : List (String × Json)) : Bool :=
  match getKey "t" kvs with
  | some (.str s) => s == "Space"
  | _ => false

/-- Test `isinstance(item, dict) and item.get("t") in ["Str", "Space"]`
from the `all(...)` generator in `add_spans_to_json`. -/
def isPlainInline : Json → Bool
  | .obj kvs => isStrTagged kvs || isSpaceTagged kvs
  | _ => false

/-- Test `all(isinstance(item, dict) and item.get("t") in ["Str", "Space"]
for item in json_data)` from `add_spans_to_json`. -/
def allPlainInline (xs : List Json) : Bool :=
  xs.all isPlainInline

/-- Literal `{"t": "", "classes": [], "attributes": []}` — the empty
attributes object built by both transform scripts. -/
def emptyAttrs : Json :=
  .obj [("t", .str ""), ("classes", .arr []), ("attributes", .arr [])]

/-- Literal `{"t": "Span", "c": [emptyAttrs, content]}` — the Span wrapper
node built by both transform scripts around `content`. -/
def mkSpan (content : Json) : Json :=
  .obj [("t", .str "Span"), ("c", .arr [emptyAttrs, content])]

mutual

/-- Function `add_spans_to_json` from `scripts/span_test.py`, as the value
it returns.  On a dict tagged `"Str"` it returns the dict unchanged; on any
other dict it recurses into every value; on a list whose every element is a
`"Str"`/`"Space"`-tagged dict it returns the one-element list holding a Span
wrapper around the original list (no further recursion); on any other list
it recurses into each element; scalars are returned unchanged. -/
def add_spans_to_json : Json → Json
  | .obj kvs =>
      if isStrTagged kvs then .obj kvs
      else .obj (addSpansFields kvs)
  | .arr xs =>
      if allPlainInline xs then .arr [mkSpan (.arr xs)]
      else .arr (addSpansList xs)
  | j => j

/-- Loop `for key, value in json_data.items(): json_data[key] = add_spans_to_json(value)`. -/
def addSpansFields : List (String × Json) → List (String × Json)
  | [] => []
  | (k, v) :: rest => (k, add_spans_to_json v) :: addSpansFields rest

/-- Comprehension `[add_spans_to_json(item) for item in json_data]`. -/
def addSpansList : List Json → List Json
  | [] => []
  | x :: rest => add_spans_to_json x :: addSpansList rest

end

example :
    add_spans_to_json (.arr [.obj [("t", .str "Str"), ("c", .str "a")]]) =
      .arr [mkSpan (.arr [.obj [("t", .str "Str"), ("c", .str "a")]])] := by
  decide

example : add_spans_to_json (.arr []) = .arr [mkSpan (.arr [])] := by decide

example :
    add_spans_to_json (.obj [("t", .str "Str"), ("x", .arr [])]) =
      .obj [("t", .str "Str"), ("x", .arr [])] := by decide

/-- Leaf text/space tokens of a document tree.  A `"Str"`-tagged mapping
contributes its text payload (its `"c"` field); a `"Space"`-tagged mapping
contributes an inter-word space marker. -/
inductive Tok where
  | text (payload : Option Json)
  | space
deriving DecidableEq

mutual

/-- Flatten of the ordered sequence of leaf text/space tokens of a tree:
a `"Str"`-tagged mapping yields one text token, a `"Space"`-tagged mapping
yields one space token, and every other node is traversed in order. -/
def tokens : Json → List Tok
  | .obj kvs =>
      if isStrTagged kvs then [.text (getKey "c" kvs)]
      else if isSpaceTagged kvs then [.space]
      else tokensFields kvs
  | .arr xs => tokensList xs
  | _ => []

def tokensFields : List (String × Json) → List Tok
  | [] => []
  | (_, v) :: rest => tokens v ++ tokensFields rest

def tokensList : List Json → List Tok
  | [] => []
  | x :: rest => tokens x ++ tokensList rest

end

/-- Test `node.get("t") == "Plain" and "c" in node` from `process_node`
in `test_spans.py`. -/
def isPlainWithC (kvs : List (String × Json)) : Bool :=
  (match getKey "t" kvs with
   | some (.str s) => s == "Plain"
   | _ => false) && (getKey "c" kvs).isSome

/-- Result of the `"Plain"` branch of `process_node`: the node's `"c"`
value is replaced by a one-element list holding a Span wrapper around the
original content. -/
def wrapPlainContent (kvs : List (String × Json)) : List (String × Json) :=
  setKey "c" (.arr [mkSpan ((getKey "c" kvs).getD .null)]) kvs

mutual

/-- Function `process_node` from `modify_json_add_spans` in
`test_spans.py`, as the value it returns.  Non-dicts are returned
unchanged.  A dict tagged `"Plain"` that has a `"c"` key gets its content
wrapped in a Span (no recursion into the wrapped content).  Any other dict
has each value processed: dict values recursively, list values element by
element where dict elements are processed recursively, list elements have
only their *dict* members processed (one further level), and everything
else is left as is — the comprehension in the source recurses through at
most two levels of list nesting. -/
def process_node : Json → Json
  | .obj kvs =>
      if isPlainWithC kvs then .obj (wrapPlainContent kvs)
      else .obj (processFields kvs)
  | j => j

/-- Loop `for key in node: ...` from the else-branch of `process_node`. -/
def processFields : List (String × Json) → List (String × Json)
  | [] => []
  | (k, v) :: rest => (k, processValue v) :: processFields rest

/-- Per-key dispatch of the else-branch of `process_node`: dict values are
processed with `process_node`, list values with the outer comprehension,
anything else kept.  The dict case restates the body of `process_node` so
that the mutual recursion stays structural; `processValue_obj` below checks
the two agree. -/
def processValue : Json → Json
  | .obj kvs =>
      if isPlainWithC kvs then .obj (wrapPlainContent kvs)
      else .obj (processFields kvs)
  | .arr items => .arr (processItems items)
  | v => v

/-- Outer comprehension `[... for item in node[key]]`. -/
def processItems : List Json → List Json
  | [] => []
  | it :: rest => processItem it :: processItems rest

/-- Per-item dispatch of the outer comprehension: `process_node(item)` on
dicts, the inner comprehension on lists, `item` otherwise. -/
def processItem : Json → Json
  | .obj kvs =>
      if isPlainWithC kvs then .obj (wrapPlainContent kvs)
      else .obj (processFields kvs)
  | .arr subs => .arr (processSubs subs)
  | it => it

/-- Inner comprehension `[process_node(subitem) if isinstance(subitem, dict)
else subitem for subitem in item]`. -/
def processSubs : List Json → List Json
  | [] => []
  | sub :: rest => processSub sub :: processSubs rest

/-- Per-subitem dispatch of the inner comprehension: `process_node` on
dicts, unchanged otherwise — deeper lists are *not* recursed into. -/
def processSub : Json → Json
  | .obj kvs =>
      if isPlainWithC kvs then .obj (wrapPlainContent kvs)
      else .obj (processFields kvs)
  | s => s

end

theorem processValue_obj (kvs : List (String × Json)) :
    processValue (.obj kvs) = process_node (.obj kvs) := rfl

theorem processItem_obj (kvs : List (String × Json)) :
    processItem (.obj kvs) = process_node (.obj kvs) := rfl

theorem processSub_obj (kvs : List (String × Json)) :
    processSub (.obj kvs) = process_node (.obj kvs) := rfl

/-- Function `modify_json_add_spans` from `test_spans.py`, as the tree it
returns.  The source first deep-copies its argument (`json.loads(json.dumps
(data))`) — the identity at the level of tree values — then replaces each
element of the copy's `"blocks"` list by `process_node` of it.  When the
argument is not a mapping with a `"blocks"` key holding a list, the source
raises (KeyError / TypeError); we return `none` there. -/
def modify_json_add_spans (data : Json) : Option Json :=
  match data with
  | .obj kvs =>
      match getKey "blocks" kvs with
      | some (.arr blocks) =>
          some (.obj (setKey "blocks" (.arr (blocks.map process_node)) kvs))
      | _ => none
  | _ => none

example :
    process_node (.obj [("t", .str "Plain"), ("c", .arr [])]) =
      .obj [("t", .str "Plain"), ("c", .arr [mkSpan (.arr [])])] := by decide

/-- Outcome of one run of the external pandoc process: its exit code and
captured standard output / standard error. -/
structure ProcResult where
  exitCode : Int
  stdout : String
  stderr : String

/-- Errors raised by `convert_markdown_to_ast` in `md_to_pandoc_ast.py`:
`RuntimeError("Pandoc conversion failed: " + stderr)` when the process
exits non-zero, `ValueError("Failed to parse Pandoc output as JSON")` when
its output is not valid JSON. -/
inductive ConvError where
  | conversionFailure (diagnostic : String)
  | formatError
deriving DecidableEq

/-- Observable resource events of `convert_markdown_to_ast`: creating the
temporary markdown file, running the pandoc subprocess, and unlinking the
temporary file. -/
inductive Ev where
  | createTemp
  | runProc
  | deleteTemp
deriving DecidableEq

/-- Function `convert_markdown_to_ast` from `md_to_pandoc_ast.py`,
returning its event trace together with its outcome.  The external pandoc
binary is modelled as a function from the markdown text (the content of
the temporary file) to a `ProcResult`; `json.loads` as `parse` (returning
`none` on a `JSONDecodeError`); `json.dumps` (with or without `indent=2`)
as `dumps`.  The source's control flow: write a temp file; run pandoc with
`check=True`; a non-zero exit raises `CalledProcessError`, re-raised as a
conversion failure carrying the captured stderr; otherwise parse stdout,
an unparsable output raising the format error; otherwise serialize the
parsed tree.  The `finally:` block unlinks the temp file on each of the
three paths before the result or error propagates. -/
def convert_markdown_to_ast (pandoc : String → ProcResult)
    (parse : String → Option Json) (dumps : Bool → Json → String)
    (markdown_text : String) (pretty : Bool) :
    List Ev × Except ConvError String :=
  let res := pandoc markdown_text
  if res.exitCode ≠ 0 then
    ([.createTemp, .runProc, .deleteTemp], .error (.conversionFailure res.stderr))
  else
    match parse res.stdout with
    | none => ([.createTemp, .runProc, .deleteTemp], .error .formatError)
    | some ast => ([.createTemp, .runProc, .deleteTemp], .ok (dumps pretty ast))

/-- Python truthiness of `args.file` / `args.markdown_text`: `None` and
the empty string are falsy, any other string is truthy. -/
def pyTruthy : Option String → Bool
  | none => false
  | some s => s != ""

/-- Input source chosen by `main` in `md_to_pandoc_ast.py`. -/
inductive InputSource where
  | fromFile (contents : String)
  | fromArg (text : String)
  | fromStdin (text : String)
  | fileError (name : String)
  | helpExit
deriving DecidableEq

/-- Input selection of `main` in `md_to_pandoc_ast.py`: `if args.file:`
read the file (an `IOError` printing a message and exiting 1); `elif
args.markdown_text:` use the positional argument; else read stdin when it
is not a terminal; else print help and exit 1.  `readFile` models
`open(...).read()`, returning `none` on `IOError`; `stdinIsTty` models
`sys.stdin.isatty()`. -/
def selectInput (file markdown_text : Option String)
    (readFile : String → Option String) (stdinIsTty : Bool)
    (stdinText : String) : InputSource :=
  if pyTruthy file then
    match readFile (file.getD "") with
    | some contents => .fromFile contents
    | none => .fileError (file.getD "")
  else if pyTruthy markdown_text then .fromArg (markdown_text.getD "")
  else if !stdinIsTty then .fromStdin stdinText
  else .helpExit

/-- Observable outcome of `main`: the process exit code (0 on success,
`sys.exit(1)` on every failure path) and whether the help text was
printed. -/
structure MainOut where
  exitCode : Int
  helpPrinted : Bool
deriving DecidableEq

/-- Function `main` from `md_to_pandoc_ast.py` at the level of its exit
behaviour: select the input source, then convert (any conversion error is
caught, printed to stderr, and turned into exit code 1).  The
`parser.print_help(); sys.exit(1)` branch is the only one printing
help. -/
def mainResult (file markdown_text : Option String)
    (readFile : String → Option String) (stdinIsTty : Bool)
    (stdinText : String) (convert : String → Except ConvError String) :
    MainOut :=
  match selectInput file markdown_text readFile stdinIsTty stdinText with
  | .helpExit => ⟨1, true⟩
  | .fileError _ => ⟨1, false⟩
  | .fromFile c =>
      match convert c with
      | .ok _ => ⟨0, false⟩
      | .error _ => ⟨1, false⟩
  | .fromArg t =>
      match convert t with
      | .ok _ => ⟨0, false⟩
      | .error _ => ⟨1, false⟩
  | .fromStdin t =>
      match convert t with
      | .ok _ => ⟨0, false⟩
      | .error _ => ⟨1, false⟩

/-- Value of `add_spans_to_json(emptyAttrs)`: the empty `classes` and
`attributes` lists vacuously satisfy the all-plain-inline test and get
wrapped. -/
def wrappedEmptyAttrs : Json :=
  .obj [("t", .str ""), ("classes", .arr [mkSpan (.arr [])]),
        ("attributes", .arr [mkSpan (.arr [])])]

theorem add_spans_arr_pos (xs : List Json) (h : allPlainInline xs = true) :
    add_spans_to_json (.arr xs) = .arr [mkSpan (.arr xs)] := by
  rw [add_spans_to_json, if_pos h]

theorem add_spans_arr_neg (xs : List Json) (h : allPlainInline xs = false) :
    add_spans_to_json (.arr xs) = .arr (addSpansList xs) := by
  rw [add_spans_to_json, if_neg (by simp [h])]

theorem addSpansList_eq_map (xs : List Json) :
    addSpansList xs = xs.map add_spans_to_json := by
  induction xs with
  | nil => rfl
  | cons x rest ih => simp [addSpansList, ih]

theorem addSpansFields_eq_map (kvs : List (String × Json)) :
    addSpansFields kvs = kvs.map fun p => (p.1, add_spans_to_json p.2) := by
  induction kvs with
  | nil => rfl
  | cons p rest ih => cases p; simp [addSpansFields, ih]

theorem add_spans_obj_pos (kvs : List (String × Json))
    (h : isStrTagged kvs = true) :
    add_spans_to_json (.obj kvs) = .obj kvs := by
  rw [add_spans_to_json, if_pos h]

theorem add_spans_obj_neg (kvs : List (String × Json))
    (h : isStrTagged kvs = false) :
    add_spans_to_json (.obj kvs) = .obj (addSpansFields kvs) := by
  rw [add_spans_to_json, if_neg (by simp [h])]

theorem getKey_addSpansFields (k : String) (kvs : List (String × Json)) :
    getKey k (addSpansFields kvs) = (getKey k kvs).map add_spans_to_json := by
  induction kvs with
  | nil => rfl
  | cons p rest ih =>
      cases p with
      | mk k' v =>
          by_cases hk : k' = k <;> simp [addSpansFields, getKey, hk, ih]

/-- Kind tag of a mapping, when its `"t"` value is a string. -/
def tagOf (kvs : List (String × Json)) : Option String :=
  match getKey "t" kvs with
  | some (.str s) => some s
  | _ => none

theorem isStrTagged_eq_tagOf (kvs : List (String × Json)) :
    isStrTagged kvs = (tagOf kvs == some "Str") := by
  unfold isStrTagged tagOf
  cases h : getKey "t" kvs with
  | none => rfl
  | some v => cases v <;> rfl

theorem isSpaceTagged_eq_tagOf (kvs : List (String × Json)) :
    isSpaceTagged kvs = (tagOf kvs == some "Space") := by
  unfold isSpaceTagged tagOf
  cases h : getKey "t" kvs with
  | none => rfl
  | some v => cases v <;> rfl

theorem tagOf_addSpansFields (kvs : List (String × Json)) :
    tagOf (addSpansFields kvs) = tagOf kvs := by
  unfold tagOf
  rw [getKey_addSpansFields]
  cases h : getKey "t" kvs with
  | none => rfl
  | some v =>
      simp only [Option.map]
      cases v with
      | obj kvs2 =>
          rw [add_spans_to_json]
          cases hc : isStrTagged kvs2 <;> simp [hc]
      | arr xs =>
          rw [add_spans_to_json]
          cases hc : allPlainInline xs <;> simp [hc]
      | null => rfl
      | bool b => rfl
      | num n => rfl
      | str s => rfl

mutual

theorem tokens_add_spans : ∀ j : Json, tokens (add_spans_to_json j) = tokens j
  | .null => rfl
  | .bool _ => rfl
  | .num _ => rfl
  | .str _ => rfl
  | .arr xs => by
      by_cases h : allPlainInline xs = true
      · rw [add_spans_arr_pos xs h]
        simp [tokens, tokensList, tokensFields, mkSpan, emptyAttrs,
          isStrTagged, isSpaceTagged, getKey]
      · rw [add_spans_arr_neg xs (by simpa using h)]
        show tokensList (addSpansList xs) = tokensList xs
        exact tokensList_add_spans xs
  | .obj kvs => by
      by_cases h : isStrTagged kvs = true
      · rw [add_spans_obj_pos kvs h]
      · have h' : isStrTagged kvs = false := by simpa using h
        rw [add_spans_obj_neg kvs h']
        have hs' : isStrTagged (addSpansFields kvs) = false := by
          rw [isStrTagged_eq_tagOf, tagOf_addSpansFields,
            ← isStrTagged_eq_tagOf, h']
        have hsp : isSpaceTagged (addSpansFields kvs) = isSpaceTagged kvs := by
          rw [isSpaceTagged_eq_tagOf, tagOf_addSpansFields,
            ← isSpaceTagged_eq_tagOf]
        by_cases hspace : isSpaceTagged kvs = true
        · simp [tokens, hs', h', hsp, hspace]
        · have hspace' : isSpaceTagged kvs = false := by simpa using hspace
          simp only [tokens, hs', h', hsp, hspace', Bool.false_eq_true,
            if_false]
          exact tokensFields_add_spans kvs

theorem tokensFields_add_spans :
    ∀ kvs : List (String × Json),
      tokensFields (addSpansFields kvs) = tokensFields kvs
  | [] => rfl
  | (k, v) :: rest => by
      show tokens (add_spans_to_json v) ++ tokensFields (addSpansFields rest) =
        tokens v ++ tokensFields rest
      rw [tokens_add_spans v, tokensFields_add_spans rest]

theorem tokensList_add_spans :
    ∀ xs : List Json, tokensList (addSpansList xs) = tokensList xs
  | [] => rfl
  | x :: rest => by
      show tokens (add_spans_to_json x) ++ tokensList (addSpansList rest) =
        tokens x ++ tokensList rest
      rw [tokens_add_spans x, tokensList_add_spans rest]

end

/-- C1 (amended): `add_spans_to_json` wraps an all-plain-inline sequence in
a single Span wrapper with empty attributes around the unchanged sequence,
recurses elementwise into any other sequence, returns a mapping tagged
`"Str"` unchanged (without recursing into its values), recurses into every
value of any other mapping preserving all keys, and returns scalars
unchanged. -/
theorem C1_add_spans_characterization :
    (∀ xs : List Json, allPlainInline xs = true →
        add_spans_to_json (.arr xs) = .arr [mkSpan (.arr xs)]) ∧
    (∀ xs : List Json, allPlainInline xs = false →
        add_spans_to_json (.arr xs) = .arr (xs.map add_spans_to_json)) ∧
    (∀ kvs, isStrTagged kvs = true → add_spans_to_json (.obj kvs) = .obj kvs) ∧
    (∀ kvs, isStrTagged kvs = false →
        add_spans_to_json (.obj kvs) =
          .obj (kvs.map fun p => (p.1, add_spans_to_json p.2))) ∧
    (add_spans_to_json .null = .null) ∧
    (∀ b, add_spans_to_json (.bool b) = .bool b) ∧
    (∀ n, add_spans_to_json (.num n) = .num n) ∧
    (∀ s, add_spans_to_json (.str s) = .str s) := by
  refine ⟨?_, ?_, ?_, ?_, rfl, fun _ => rfl, fun _ => rfl, fun _ => rfl⟩
  · intro xs h; simp [add_spans_to_json, h]
  · intro xs h; simp [add_spans_to_json, h, addSpansList_eq_map]
  · intro kvs h; simp [add_spans_to_json, h]
  · intro kvs h; simp [add_spans_to_json, h, addSpansFields_eq_map]

/-- C1 witness: a singleton sequence holding a `"Space"` mapping is
all-plain-inline and gets wrapped. -/
theorem C1_witness :
    add_spans_to_json (.arr [.obj [("t", .str "Space")]]) =
      .arr [mkSpan (.arr [.obj [("t", .str "Space")]])] :=
  C1_add_spans_characterization.1 [.obj [("t", .str "Space")]] (by decide)

/-- C1 counterexample: at a mapping tagged `"Str"` the transform does NOT
recurse into every value — it returns the mapping unchanged, whereas the
claim's mapping rule (recurse into every value; an empty sequence value is
vacuously all-plain-inline and gets wrapped) would change it. -/
theorem C1_counterexample :
    add_spans_to_json (.obj [("t", .str "Str"), ("x", .arr [])]) =
      .obj [("t", .str "Str"), ("x", .arr [])] ∧
    Json.obj [("t", .str "Str"), ("x", .arr [])] ≠
      .obj [("t", .str "Str"), ("x", add_spans_to_json (.arr []))] := by
  decide

/-- C2 (amended): `modify_json_add_spans` maps `process_node` over the
top-level `"blocks"` list of a deep copy; `process_node` wraps the `"c"`
content of a `"Plain"`-tagged mapping in one Span wrapper with empty
attributes regardless of the content's composition (and does not recurse
into the wrapped content), recurses into every value of any other mapping,
descending through at most two levels of sequence nesting below a mapping
value (`processSub` leaves deeper sequences untouched), and wraps nothing
at a node of any other kind. -/
theorem C2_plain_wrap_characterization :
    (∀ kvs c, getKey "t" kvs = some (.str "Plain") → getKey "c" kvs = some c →
        process_node (.obj kvs) = .obj (setKey "c" (.arr [mkSpan c]) kvs)) ∧
    (∀ kvs, isPlainWithC kvs = false →
        process_node (.obj kvs) =
          .obj (kvs.map fun p => (p.1, processValue p.2))) ∧
    (∀ xs, processValue (.arr xs) = .arr (xs.map processItem)) ∧
    (∀ xs, processItem (.arr xs) = .arr (xs.map processSub)) ∧
    (∀ xs, processSub (.arr xs) = .arr xs) ∧
    (∀ xs, process_node (.arr xs) = .arr xs) ∧
    (∀ s, process_node (.str s) = .str s) ∧
    (∀ kvs blocks, getKey "blocks" kvs = some (.arr blocks) →
        modify_json_add_spans (.obj kvs) =
          some (.obj (setKey "blocks" (.arr (blocks.map process_node)) kvs))) := by
  refine ⟨?_, ?_, ?_, ?_, fun _ => rfl, fun _ => rfl, fun _ => rfl, ?_⟩
  · intro kvs c ht hc
    have hp : isPlainWithC kvs = true := by
      simp [isPlainWithC, ht, hc]
    simp [process_node, hp, wrapPlainContent, hc]
  · intro kvs h
    have : ∀ l, processFields l = l.map fun p => (p.1, processValue p.2) := by
      intro l
      induction l with
      | nil => rfl
      | cons p rest ih => cases p; simp [processFields, ih]
    simp [process_node, h, this]
  · intro xs
    have : ∀ l, processItems l = l.map processItem := by
      intro l
      induction l with
      | nil => rfl
      | cons x rest ih => simp [processItems, ih]
    simp [processValue, this]
  · intro xs
    have : ∀ l, processSubs l = l.map processSub := by
      intro l
      induction l with
      | nil => rfl
      | cons x rest ih => simp [processSubs, ih]
    simp [processItem, this]
  · intro kvs blocks hb
    simp [modify_json_add_spans, hb]

/-- C2 witness: a `"Plain"` block's content (here a single text token) is
wrapped in one Span wrapper. -/
theorem C2_witness :
    process_node (.obj [("t", .str "Plain"),
        ("c", .arr [.obj [("t", .str "Str"), ("c", .str "x")]])]) =
      .obj [("t", .str "Plain"),
        ("c", .arr [mkSpan (.arr [.obj [("t", .str "Str"), ("c", .str "x")]])])] := by
  have h := C2_plain_wrap_characterization.1
    [("t", .str "Plain"), ("c", .arr [.obj [("t", .str "Str"), ("c", .str "x")]])]
    (.arr [.obj [("t", .str "Str"), ("c", .str "x")]]) (by decide) (by decide)
  simpa [setKey] using h

/-- C2 counterexample: a `"Plain"` node sitting under three nested
sequences inside a mapping value is not reached — the whole document comes
back unchanged, though the claim demands that node's content be wrapped
(which would change it). -/
theorem C2_counterexample :
    modify_json_add_spans (.obj [("blocks",
        .arr [.obj [("t", .str "X"),
          ("c", .arr [.arr [.arr [.obj [("t", .str "Plain"), ("c", .arr [])]]]])]])]) =
      some (.obj [("blocks",
        .arr [.obj [("t", .str "X"),
          ("c", .arr [.arr [.arr [.obj [("t", .str "Plain"), ("c", .arr [])]]]])]])]) ∧
    Json.obj [("t", .str "Plain"), ("c", .arr [])] ≠
      .obj [("t", .str "Plain"), ("c", .arr [mkSpan (.arr [])])] := by
  decide

/-- C3 (amended): after a run has been wrapped, a second pass of
`add_spans_to_json` indeed does not re-wrap the one-element sequence
holding the Span node (it fails the all-plain-inline test), but it does
NOT leave the wrapped subtree unchanged: it recurses into the Span
wrapper, wraps the empty `classes` and `attributes` lists of the wrapper's
attributes object, and re-wraps the inner all-plain run in a further
Span. -/
theorem C3_second_pass (l : List Json) (h : allPlainInline l = true) :
    allPlainInline [mkSpan (.arr l)] = false ∧
    add_spans_to_json (.arr [mkSpan (.arr l)]) =
      .arr [.obj [("t", .str "Span"),
        ("c", .arr [wrappedEmptyAttrs, .arr [mkSpan (.arr l)]])]] ∧
    add_spans_to_json (.arr [mkSpan (.arr l)]) ≠ .arr [mkSpan (.arr l)] := by
  have h1 : allPlainInline [mkSpan (.arr l)] = false := by
    simp [allPlainInline, isPlainInline, mkSpan, isStrTagged, isSpaceTagged, getKey]
  have h2 : add_spans_to_json (.arr [mkSpan (.arr l)]) =
      .arr [.obj [("t", .str "Span"),
        ("c", .arr [wrappedEmptyAttrs, .arr [mkSpan (.arr l)]])]] := by
    have estep : add_spans_to_json (.arr [mkSpan (.arr l)]) =
        .arr [.obj [("t", .str "Span"),
          ("c", .arr [wrappedEmptyAttrs, add_spans_to_json (.arr l)])]] := rfl
    rw [estep, add_spans_arr_pos l h]
  refine ⟨h1, h2, ?_⟩
  rw [h2]
  simp [mkSpan, wrappedEmptyAttrs, emptyAttrs]

/-- C3 witness: second pass on the wrapped singleton run consisting of one
`"Space"` token. -/
theorem C3_witness :
    allPlainInline [mkSpan (.arr [.obj [("t", .str "Space")]])] = false ∧
    add_spans_to_json (.arr [mkSpan (.arr [.obj [("t", .str "Space")]])]) =
      .arr [.obj [("t", .str "Span"),
        ("c", .arr [wrappedEmptyAttrs,
          .arr [mkSpan (.arr [.obj [("t", .str "Space")]])]])]] ∧
    add_spans_to_json (.arr [mkSpan (.arr [.obj [("t", .str "Space")]])]) ≠
      .arr [mkSpan (.arr [.obj [("t", .str "Space")]])] :=
  C3_second_pass [.obj [("t", .str "Space")]] (by decide)

/-- C3 counterexample: the claim as stated is false — applying
`add_spans_to_json` a second time changes the wrapped subtree. -/
theorem C3_counterexample :
    add_spans_to_json
        (.arr [mkSpan (.arr [.obj [("t", .str "Str"), ("c", .str "a")]])]) ≠
      .arr [mkSpan (.arr [.obj [("t", .str "Str"), ("c", .str "a")]])] := by
  decide

/-- C8 (amended): the empty sequence vacuously satisfies the
all-plain-inline test and is replaced, wherever the recursion reaches it,
by a one-element sequence holding a Span wrapper around the empty
sequence; in particular a second pass over a previously inserted Span
wrapper wraps the wrapper's empty `classes` and `attributes` lists.  (Not
every empty list in the tree is reached: see the counterexample.) -/
theorem C8_empty_list_wrapped :
    allPlainInline [] = true ∧
    add_spans_to_json (.arr []) = .arr [mkSpan (.arr [])] ∧
    add_spans_to_json emptyAttrs = wrappedEmptyAttrs := by
  decide

/-- C8 counterexample: an empty list sitting inside a `"Str"`-tagged
mapping is never reached — the transform returns the mapping unchanged,
though the claim demands every empty list be replaced by a wrapped
singleton (which would change it). -/
theorem C8_counterexample :
    add_spans_to_json (.obj [("t", .str "Str"), ("c", .arr [])]) =
      .obj [("t", .str "Str"), ("c", .arr [])] ∧
    Json.arr [] ≠ .arr [mkSpan (.arr [])] := by
  decide

/-- C4: flattening the leaf text/space tokens out of the tree returned by
`add_spans_to_json` yields the same ordered token sequence as flattening
the input tree: the transform never drops or reorders original content. -/
theorem C4_token_sequence_preserved (j : Json) :
    tokens (add_spans_to_json j) = tokens j :=
  tokens_add_spans j

/-- C5: `convert_markdown_to_ast` fails with the conversion-failure error
carrying exactly the process's stderr iff the process exited non-zero;
fails with the format error iff the process succeeded but its stdout does
not parse as JSON; and otherwise returns the serialized parsed tree. -/
theorem C5_convert_error_model (pandoc : String → ProcResult)
    (parse : String → Option Json) (dumps : Bool → Json → String)
    (md : String) (pretty : Bool) :
    (∀ d, (convert_markdown_to_ast pandoc parse dumps md pretty).2 =
          .error (.conversionFailure d) ↔
        ((pandoc md).exitCode ≠ 0 ∧ d = (pandoc md).stderr)) ∧
    ((convert_markdown_to_ast pandoc parse dumps md pretty).2 =
          .error .formatError ↔
        ((pandoc md).exitCode = 0 ∧ parse (pandoc md).stdout = none)) ∧
    (∀ ast, (pandoc md).exitCode = 0 → parse (pandoc md).stdout = some ast →
        (convert_markdown_to_ast pandoc parse dumps md pretty).2 =
          .ok (dumps pretty ast)) := by
  by_cases h : (pandoc md).exitCode = 0
  · cases hp : parse (pandoc md).stdout with
    | none =>
        refine ⟨?_, ?_, ?_⟩ <;>
          simp [convert_markdown_to_ast, h, hp]
    | some ast =>
        refine ⟨?_, ?_, ?_⟩ <;>
          simp [convert_markdown_to_ast, h, hp]
  · refine ⟨?_, ?_, ?_⟩ <;>
      simp [convert_markdown_to_ast, h]
    · intro d
      constructor
      · intro hd
        simpa [eq_comm] using hd
      · intro hd
        simp [hd]

/-- C5 witness: with a zero exit code and parsable output the serialized
tree is returned. -/
theorem C5_witness :
    (convert_markdown_to_ast (fun _ => ⟨0, "out", ""⟩) (fun _ => some .null)
        (fun _ _ => "SERIAL") "# h" true).2 = .ok "SERIAL" :=
  (C5_convert_error_model (fun _ => ⟨0, "out", ""⟩) (fun _ => some .null)
      (fun _ _ => "SERIAL") "# h" true).2.2 .null rfl rfl

/-- C6: on every exit path — normal return, conversion failure, or format
error — the event trace of `convert_markdown_to_ast` is create, run,
delete: the temporary input file is deleted, as the last event, before the
call returns or the error propagates. -/
theorem C6_temp_file_cleanup (pandoc : String → ProcResult)
    (parse : String → Option Json) (dumps : Bool → Json → String)
    (md : String) (pretty : Bool) :
    (convert_markdown_to_ast pandoc parse dumps md pretty).1 =
      [Ev.createTemp, Ev.runProc, Ev.deleteTemp] := by
  by_cases h : (pandoc md).exitCode = 0
  · cases hp : parse (pandoc md).stdout <;>
      simp [convert_markdown_to_ast, h, hp]
  · simp [convert_markdown_to_ast, h]

/-- C7: with no `--file`, no positional markdown text, and a terminal on
standard input, `main` prints the usage help and exits with status 1. -/
theorem C7_no_input_help_exit (readFile : String → Option String)
    (stdinText : String) (convert : String → Except ConvError String) :
    selectInput none none readFile true stdinText = .helpExit ∧
    mainResult none none readFile true stdinText convert = ⟨1, true⟩ :=
  ⟨rfl, rfl⟩

/-- C10 (amended): the input-source priority holds with Python truthiness:
a *non-empty* `--file` value wins (the positional argument and stdin are
ignored), else a *non-empty* positional argument is used (stdin is not
read), else stdin is read when it is piped, else help is printed.  An
empty-string `--file` or positional value is falsy and is skipped. -/
theorem C10_input_priority (file pos : Option String)
    (readFile : String → Option String) (tty : Bool) (stdinText : String) :
    (∀ f, file = some f → f ≠ "" →
        selectInput file pos readFile tty stdinText =
          (match readFile f with
           | some c => .fromFile c
           | none => .fileError f)) ∧
    (pyTruthy file = false → ∀ t, pos = some t → t ≠ "" →
        selectInput file pos readFile tty stdinText = .fromArg t) ∧
    (pyTruthy file = false → pyTruthy pos = false →
        selectInput file pos readFile tty stdinText =
          if tty then .helpExit else .fromStdin stdinText) := by
  refine ⟨?_, ?_, ?_⟩
  · intro f hf hne
    subst hf
    have ht : pyTruthy (some f) = true := by
      simp [pyTruthy, hne]
    cases hr : readFile f <;> simp [selectInput, ht, hr]
  · intro hf t hp hne
    subst hp
    have ht : pyTruthy (some t) = true := by
      simp [pyTruthy, hne]
    simp [selectInput, hf, ht]
  · intro hf hp
    cases tty <;> simp [selectInput, hf, hp]

/-- C10 witness: a non-empty `--file` wins over a positional argument and
stdin. -/
theorem C10_witness :
    selectInput (some "in.md") (some "ignored") (fun _ => some "CONTENTS")
        true "std" = .fromFile "CONTENTS" :=
  (C10_input_priority (some "in.md") (some "ignored")
      (fun _ => some "CONTENTS") true "std").1 "in.md" rfl (by decide)

/-- C10 counterexample: an empty positional argument is given, yet stdin is
read instead of the positional text — the claim's priority rule fails on
empty-string arguments. -/
theorem C10_counterexample :
    selectInput none (some "") (fun _ => none) false "piped" =
      .fromStdin "piped" ∧
    InputSource.fromStdin "piped" ≠ .fromArg "" := by
  exact ⟨rfl, by decide⟩

/-!
Heap model of the Python mutation behaviour.

`add_spans_to_json` writes `json_data[key] = ...` into its argument's
dicts, while `modify_json_add_spans` first deep-copies its argument
(`json.loads(json.dumps(data))`) and only ever writes into the copy.  To
settle the frame claim we model Python dicts as mutable heap cells and the
two functions as state-passing over that heap.  Scalars and lists are
modelled as immutable values: neither function mutates a list object in
place (every list that is stored is a freshly built one), so list identity
is unobservable.  Recursion is fuel-bounded, `none` meaning the fuel ran
out (Python would recurse further, or diverge on a cyclic heap).
-/

/-- Python runtime values: scalars, (immutable) lists, and references to
mutable dict cells. -/
inductive PVal where
  | pnull
  | pbool (b : Bool)
  | pint (n : Int)
  | pstr (s : String)
  | plist (elems : List PVal)
  | pref (r : Nat)

/-- Contents of a dict cell: ordered key/value pairs with unique keys. -/
abbrev Cell := List (String × PVal)

/-- The heap: cell `r` is the dict object with identity `r`. -/
abbrev PHeap := List Cell

/-- Python `d.get(k)` on a heap cell's contents. -/
def getKeyP (k : String) : Cell → Option PVal
  | [] => none
  | (k', v) :: rest => if k' = k then some v else getKeyP k rest

/-- Python `d[k] = v` on an existing key of a cell's contents. -/
def setKeyP (k : String) (v : PVal) : Cell → Cell
  | [] => []
  | (k', v') :: rest => if k' = k then (k, v) :: rest else (k', v') :: setKeyP k v rest

/-- Test `d.get("t") == "Str"` on a heap cell. -/
def isStrTaggedP (c : Cell) : Bool :=
  match getKeyP "t" c with
  | some (.pstr s) => s == "Str"
  | _ => false

/-- Test `d.get("t") == "Space"` on a heap cell. -/
def isSpaceTaggedP (c : Cell) : Bool :=
  match getKeyP "t" c with
  | some (.pstr s) => s == "Space"
  | _ => false

/-- Test `node.get("t") == "Plain" and "c" in node` on a heap cell. -/
def isPlainWithCP (c : Cell) : Bool :=
  (match getKeyP "t" c with
   | some (.pstr s) => s == "Plain"
   | _ => false) && (getKeyP "c" c).isSome

/-- Test `isinstance(item, dict) and item.get("t") in ["Str", "Space"]`
read through the heap. -/
def isPlainInlineH (h : PHeap) : PVal → Bool
  | .pref r =>
      match h[r]? with
      | some c => isStrTaggedP c || isSpaceTaggedP c
      | none => false
  | _ => false

mutual

/-- Serialization `json.dumps` (read the current tree value out of the
heap); fuel-bounded, `none` on exhaustion (a cyclic structure makes
`json.dumps` raise). -/
def readV : Nat → PHeap → PVal → Option Json
  | 0, _, _ => none
  | _ + 1, _, .pnull => some .null
  | _ + 1, _, .pbool b => some (.bool b)
  | _ + 1, _, .pint n => some (.num n)
  | _ + 1, _, .pstr s => some (.str s)
  | fuel + 1, h, .plist es => (readL fuel h es).map .arr
  | fuel + 1, h, .pref r =>
      match h[r]? with
      | none => none
      | some c => (readF fuel h c).map .obj

/-- Elementwise `readV` over a list value. -/
def readL : Nat → PHeap → List PVal → Option (List Json)
  | 0, _, _ => none
  | _ + 1, _, [] => some []
  | fuel + 1, h, v :: rest =>
      match readV fuel h v, readL fuel h rest with
      | some j, some js => some (j :: js)
      | _, _ => none

/-- Fieldwise `readV` over a cell's contents. -/
def readF : Nat → PHeap → Cell → Option (List (String × Json))
  | 0, _, _ => none
  | _ + 1, _, [] => some []
  | fuel + 1, h, (k, v) :: rest =>
      match readV fuel h v, readF fuel h rest with
      | some j, some js => some ((k, j) :: js)
      | _, _ => none

end

mutual

/-- Deserialization `json.loads`: build a fresh, alias-free heap structure
for a JSON tree, allocating a new cell for every object. -/
def inject : Json → PHeap → PVal × PHeap
  | .null, h => (.pnull, h)
  | .bool b, h => (.pbool b, h)
  | .num n, h => (.pint n, h)
  | .str s, h => (.pstr s, h)
  | .arr xs, h =>
      let p := injectL xs h
      (.plist p.1, p.2)
  | .obj kvs, h =>
      let p := injectF kvs h
      (.pref p.2.length, p.2 ++ [p.1])

def injectL : List Json → PHeap → List PVal × PHeap
  | [], h => ([], h)
  | x :: rest, h =>
      let p := inject x h
      let q := injectL rest p.2
      (p.1 :: q.1, q.2)

def injectF : List (String × Json) → PHeap → Cell × PHeap
  | [], h => ([], h)
  | (k, v) :: rest, h =>
      let p := inject v h
      let q := injectF rest p.2
      ((k, p.1) :: q.1, q.2)

end

mutual

/-- Function `add_spans_to_json` over the heap: it mutates its argument's
dict cells in place (`json_data[key] = add_spans_to_json(value)`) and
returns the same reference for a dict argument; lists are rebuilt as new
values. -/
def addSpansH : Nat → PVal → PHeap → Option (PVal × PHeap)
  | 0, _, _ => none
  | fuel + 1, v, h =>
      match v with
      | .pref r =>
          match h[r]? with
          | none => none
          | some c =>
              if isStrTaggedP c then some (.pref r, h)
              else
                match addSpansCellH fuel r 0 h with
                | none => none
                | some h' => some (.pref r, h')
      | .plist es =>
          if es.all (isPlainInlineH h) then
            let ra := h.length
            let h1 := h ++
              [[("t", PVal.pstr ""), ("classes", PVal.plist []),
                ("attributes", PVal.plist [])]]
            let h2 := h1 ++
              [[("t", PVal.pstr "Span"),
                ("c", PVal.plist [PVal.pref ra, PVal.plist es])]]
            some (.plist [.pref h1.length], h2)
          else
            match addSpansLH fuel es h with
            | none => none
            | some p => some (.plist p.1, p.2)
      | _ => some (v, h)

/-- Loop `for key, value in json_data.items(): json_data[key] =
add_spans_to_json(value)` over the fields of cell `r`, starting at field
index `i`; the pair is read from the current heap at each iteration, as
Python's live `items()` iterator does. -/
def addSpansCellH : Nat → Nat → Nat → PHeap → Option PHeap
  | 0, _, _, _ => none
  | fuel + 1, r, i, h =>
      match h[r]? with
      | none => none
      | some c =>
          if hi : i < c.length then
            let kv := c.get ⟨i, hi⟩
            match addSpansH fuel kv.2 h with
            | none => none
            | some (v', h') =>
                match h'[r]? with
                | none => none
                | some c' =>
                    addSpansCellH fuel r (i + 1) (h'.set r (setKeyP kv.1 v' c'))
          else some h

/-- Comprehension `[add_spans_to_json(item) for item in json_data]` over
the heap. -/
def addSpansLH : Nat → List PVal → PHeap → Option (List PVal × PHeap)
  | 0, _, _ => none
  | _ + 1, [], h => some ([], h)
  | fuel + 1, v :: rest, h =>
      match addSpansH fuel v h with
      | none => none
      | some (v', h') =>
          match addSpansLH fuel rest h' with
          | none => none
          | some p => some (v' :: p.1, p.2)

end

mutual

/-- Function `process_node` over the heap: non-dicts are returned
unchanged; a `"Plain"`-with-content cell gets its `"c"` field overwritten
with a freshly allocated Span wrapper; any other cell has each field
processed in place, lists through the two comprehension levels. -/
def processNodeH : Nat → PVal → PHeap → Option (PVal × PHeap)
  | 0, _, _ => none
  | fuel + 1, v, h =>
      match v with
      | .pref r =>
          match h[r]? with
          | none => none
          | some c =>
              if isPlainWithCP c then
                let content := (getKeyP "c" c).getD .pnull
                let ra := h.length
                let h1 := h ++
                  [[("t", PVal.pstr ""), ("classes", PVal.plist []),
                    ("attributes", PVal.plist [])]]
                let rs := h1.length
                let h2 := h1 ++
                  [[("t", PVal.pstr "Span"),
                    ("c", PVal.plist [PVal.pref ra, content])]]
                some (.pref r, h2.set r (setKeyP "c" (PVal.plist [PVal.pref rs]) c))
              else
                match processCellH fuel r 0 h with
                | none => none
                | some h' => some (.pref r, h')
      | _ => some (v, h)

/-- Loop `for key in node:` of the else-branch of `process_node` over the
fields of cell `r` from index `i`: dict values are processed recursively
(and reassigned), list values are rebuilt by the comprehension and
reassigned, other values are not assigned. -/
def processCellH : Nat → Nat → Nat → PHeap → Option PHeap
  | 0, _, _, _ => none
  | fuel + 1, r, i, h =>
      match h[r]? with
      | none => none
      | some c =>
          if hi : i < c.length then
            let kv := c.get ⟨i, hi⟩
            match kv.2 with
            | .pref r2 =>
                match processNodeH fuel (.pref r2) h with
                | none => none
                | some (v', h') =>
                    match h'[r]? with
                    | none => none
                    | some c' =>
                        processCellH fuel r (i + 1) (h'.set r (setKeyP kv.1 v' c'))
            | .plist items =>
                match processItemsH fuel items h with
                | none => none
                | some (items', h') =>
                    match h'[r]? with
                    | none => none
                    | some c' =>
                        processCellH fuel r (i + 1)
                          (h'.set r (setKeyP kv.1 (.plist items') c'))
            | _ => processCellH fuel r (i + 1) h
          else some h

/-- Outer comprehension of the else-branch of `process_node`. -/
def processItemsH : Nat → List PVal → PHeap → Option (List PVal × PHeap)
  | 0, _, _ => none
  | _ + 1, [], h => some ([], h)
  | fuel + 1, it :: rest, h =>
      match processItemH fuel it h with
      | none => none
      | some (it', h') =>
          match processItemsH fuel rest h' with
          | none => none
          | some p => some (it' :: p.1, p.2)

/-- Per-item dispatch of the outer comprehension: dicts via
`process_node`, lists via the inner comprehension, others unchanged. -/
def processItemH : Nat → PVal → PHeap → Option (PVal × PHeap)
  | 0, _, _ => none
  | fuel + 1, .pref r, h => processNodeH fuel (.pref r) h
  | fuel + 1, .plist subs, h =>
      match processSubsH fuel subs h with
      | none => none
      | some p => some (.plist p.1, p.2)
  | _ + 1, v, h => some (v, h)

/-- Inner comprehension: only dict subitems are processed; deeper lists
and scalars are kept as they are. -/
def processSubsH : Nat → List PVal → PHeap → Option (List PVal × PHeap)
  | 0, _, _ => none
  | _ + 1, [], h => some ([], h)
  | fuel + 1, sub :: rest, h =>
      match processSubH fuel sub h with
      | none => none
      | some (sub', h') =>
          match processSubsH fuel rest h' with
          | none => none
          | some p => some (sub' :: p.1, p.2)

/-- Per-subitem dispatch of the inner comprehension:
`process_node(subitem) if isinstance(subitem, dict) else subitem`. -/
def processSubH : Nat → PVal → PHeap → Option (PVal × PHeap)
  | 0, _, _ => none
  | fuel + 1, .pref r, h => processNodeH fuel (.pref r) h
  | _ + 1, v, h => some (v, h)

end

/-- Loop `for i, block in enumerate(result["blocks"]): result["blocks"][i]
= process_node(block)`. -/
def processBlocksH : Nat → List PVal → PHeap → Option (List PVal × PHeap)
  | 0, _, _ => none
  | _ + 1, [], h => some ([], h)
  | fuel + 1, b :: rest, h =>
      match processNodeH fuel b h with
      | none => none
      | some (b', h') =>
          match processBlocksH fuel rest h' with
          | none => none
          | some p => some (b' :: p.1, p.2)

/-- Function `modify_json_add_spans` over the heap: deep-copy the argument
via a serialize/deserialize round trip, then run `process_node` over the
copy's `"blocks"` elements, storing the processed list back into the
copy's root cell.  `none` models a raised exception (missing or non-list
`"blocks"`, non-dict root) or fuel exhaustion. -/
def modifyH : Nat → PVal → PHeap → Option (PVal × PHeap)
  | 0, _, _ => none
  | fuel + 1, v, h =>
      match readV fuel h v with
      | none => none
      | some j =>
          let p := inject j h
          match p.1 with
          | .pref r =>
              match p.2[r]? with
              | none => none
              | some c =>
                  match getKeyP "blocks" c with
                  | some (.plist blocks) =>
                      match processBlocksH fuel blocks p.2 with
                      | none => none
                      | some (blocks', h2) =>
                          match h2[r]? with
                          | none => none
                          | some c2 =>
                              some (.pref r,
                                h2.set r (setKeyP "blocks" (.plist blocks') c2))
                  | _ => none
          | _ => none

mutual

/-- Every reference occurring in a value satisfies `p`. -/
def refsOK (p : Nat → Bool) : PVal → Bool
  | .pref r => p r
  | .plist es => refsOKL p es
  | _ => true

def refsOKL (p : Nat → Bool) : List PVal → Bool
  | [] => true
  | v :: rest => refsOK p v && refsOKL p rest

end

/-- Every reference occurring in a cell's contents satisfies `p`. -/
def refsOKC (p : Nat → Bool) : Cell → Bool
  | [] => true
  | (_, v) :: rest => refsOK p v && refsOKC p rest

/-- Heaps agree on all cells with index below `n`. -/
def prefixEq (n : Nat) (h h' : PHeap) : Prop :=
  ∀ i, i < n → h'[i]? = h[i]?

/-- Every cell at index at least `n` references only cells at index at
least `n`: the region from `n` up is closed, so mutating and allocating
inside it cannot be observed from below `n`. -/
def freshOK (n : Nat) (h : PHeap) : Prop :=
  ∀ r c, n ≤ r → h[r]? = some c → refsOKC (fun x => Nat.ble n x) c = true

/-- Every cell at index below `n` references only cells below `n`. -/
def closedBelow (n : Nat) (h : PHeap) : Prop :=
  ∀ r c, r < n → h[r]? = some c → refsOKC (fun x => Nat.blt x n) c = true

/-- Boolean well-formedness of a heap: every cell references only
existing cells. -/
def wfHeapB (h : PHeap) : Bool :=
  h.all (fun c => refsOKC (fun x => Nat.blt x h.length) c)

theorem prefixEq_trans {n : Nat} {h1 h2 h3 : PHeap}
    (a : prefixEq n h1 h2) (b : prefixEq n h2 h3) : prefixEq n h1 h3 :=
  fun i hi => (b i hi).trans (a i hi)

theorem prefixEq_append {n : Nat} (h ext : PHeap) (hn : n ≤ h.length) :
    prefixEq n h (h ++ ext) := by
  intro i hi
  rw [List.getElem?_append]
  simp [Nat.lt_of_lt_of_le hi hn]

theorem prefixEq_set {n : Nat} (h : PHeap) (r : Nat) (c : Cell)
    (hr : n ≤ r) : prefixEq n h (h.set r c) := by
  intro i hi
  exact List.getElem?_set_ne (by omega)

theorem freshOK_of_length_le {n : Nat} {h : PHeap} (hn : h.length ≤ n) :
    freshOK n h := by
  intro r c hr hc
  rw [List.getElem?_eq_none (by omega)] at hc
  exact absurd hc (by simp)

theorem freshOK_set {n : Nat} {h : PHeap} (hf : freshOK n h) (r : Nat)
    {c : Cell} (hc : refsOKC (fun x => Nat.ble n x) c = true) :
    freshOK n (h.set r c) := by
  intro i c' hi hc'
  by_cases hir : r = i
  · subst hir
    by_cases hlen : r < h.length
    · rw [List.getElem?_set_eq_of_lt c hlen] at hc'
      cases hc'
      exact hc
    · rw [List.set_eq_of_length_le (by omega)] at hc'
      exact hf _ c' hi hc'
  · rw [List.getElem?_set_ne hir] at hc'
    exact hf i c' hi hc'

theorem freshOK_append {n : Nat} {h : PHeap} (hf : freshOK n h)
    {c : Cell} (hc : refsOKC (fun x => Nat.ble n x) c = true) :
    freshOK n (h ++ [c]) := by
  intro i c' hi hc'
  rw [List.getElem?_append] at hc'
  by_cases hlen : i < h.length
  · rw [if_pos hlen] at hc'
    exact hf i c' hi hc'
  · rw [if_neg hlen] at hc'
    by_cases he : i = h.length
    · subst he
      simp at hc'
      cases hc'
      exact hc
    · rw [List.getElem?_eq_none (by simp; omega)] at hc'
      exact absurd hc' (by simp)

mutual

theorem refsOK_mono {m n : Nat} (hnm : n ≤ m) :
    ∀ v : PVal, refsOK (fun x => Nat.ble m x) v = true →
      refsOK (fun x => Nat.ble n x) v = true
  | .pnull => fun _ => rfl
  | .pbool _ => fun _ => rfl
  | .pint _ => fun _ => rfl
  | .pstr _ => fun _ => rfl
  | .plist es => refsOKL_mono hnm es
  | .pref r => by
      intro hr
      simp only [refsOK, Nat.ble_eq] at hr ⊢
      omega

theorem refsOKL_mono {m n : Nat} (hnm : n ≤ m) :
    ∀ es : List PVal, refsOKL (fun x => Nat.ble m x) es = true →
      refsOKL (fun x => Nat.ble n x) es = true
  | [] => fun _ => rfl
  | v :: rest => by
      intro hc
      simp only [refsOKL, Bool.and_eq_true] at hc ⊢
      exact ⟨refsOK_mono hnm v hc.1, refsOKL_mono hnm rest hc.2⟩

end

theorem refsOKC_mono {m n : Nat} (hnm : n ≤ m) :
    ∀ c : Cell, refsOKC (fun x => Nat.ble m x) c = true →
      refsOKC (fun x => Nat.ble n x) c = true := by
  intro c
  induction c with
  | nil => exact fun _ => rfl
  | cons p rest ih =>
      cases p with
      | mk k v =>
          intro hc
          simp [refsOKC] at hc ⊢
          exact ⟨refsOK_mono hnm v hc.1, ih hc.2⟩

theorem getKeyP_refsOK {p : Nat → Bool} :
    ∀ (c : Cell) (k : String) (v : PVal), refsOKC p c = true →
      getKeyP k c = some v → refsOK p v = true := by
  intro c
  induction c with
  | nil => intro k v _ hv; exact absurd hv (by simp [getKeyP])
  | cons q rest ih =>
      cases q with
      | mk k' v' =>
          intro k v hc hv
          simp [refsOKC] at hc
          by_cases hk : k' = k
          · rw [getKeyP, if_pos hk] at hv
            cases hv
            exact hc.1
          · rw [getKeyP, if_neg hk] at hv
            exact ih k v hc.2 hv

theorem setKeyP_refsOK {p : Nat → Bool} :
    ∀ (c : Cell) (k : String) (v : PVal), refsOKC p c = true →
      refsOK p v = true → refsOKC p (setKeyP k v c) = true := by
  intro c
  induction c with
  | nil => intro k v _ _; rfl
  | cons q rest ih =>
      cases q with
      | mk k' v' =>
          intro k v hc hv
          simp [refsOKC] at hc
          by_cases hk : k' = k
          · rw [setKeyP, if_pos hk]
            simp [refsOKC]
            exact ⟨hv, hc.2⟩
          · rw [setKeyP, if_neg hk]
            simp [refsOKC]
            exact ⟨hc.1, ih k v hc.2 hv⟩

theorem refsOKC_get {p : Nat → Bool} :
    ∀ (c : Cell), refsOKC p c = true →
      ∀ i : Fin c.length, refsOK p (c.get i).2 = true := by
  intro c
  induction c with
  | nil => intro _ i; exact absurd i.isLt (by simp)
  | cons q rest ih =>
      cases q with
      | mk k v =>
          intro hc i
          simp [refsOKC] at hc
          cases i using Fin.cases with
          | zero => exact hc.1
          | succ j => exact ih hc.2 j

theorem prefixEq_mono {m n : Nat} {h h' : PHeap} (hp : prefixEq m h h')
    (hnm : n ≤ m) : prefixEq n h h' :=
  fun i hi => hp i (Nat.lt_of_lt_of_le hi hnm)

theorem prefixEq_refl (n : Nat) (h : PHeap) : prefixEq n h h :=
  fun _ _ => rfl

mutual

theorem inject_spec (n : Nat) :
    ∀ (j : Json) (h : PHeap), n ≤ h.length → freshOK n h →
      h.length ≤ (inject j h).2.length ∧
      prefixEq h.length h (inject j h).2 ∧
      freshOK n (inject j h).2 ∧
      refsOK (fun x => Nat.ble n x) (inject j h).1 = true
  | .null, h => fun _ hf => ⟨Nat.le_refl _, prefixEq_refl _ _, hf, rfl⟩
  | .bool _, h => fun _ hf => ⟨Nat.le_refl _, prefixEq_refl _ _, hf, rfl⟩
  | .num _, h => fun _ hf => ⟨Nat.le_refl _, prefixEq_refl _ _, hf, rfl⟩
  | .str _, h => fun _ hf => ⟨Nat.le_refl _, prefixEq_refl _ _, hf, rfl⟩
  | .arr xs, h => fun hn hf => injectL_spec n xs h hn hf
  | .obj kvs, h => by
      intro hn hf
      obtain ⟨hlen, hpre, hfres, hok⟩ := injectF_spec n kvs h hn hf
      refine ⟨?_, ?_, ?_, ?_⟩
      · show h.length ≤ ((injectF kvs h).2 ++ [(injectF kvs h).1]).length
        simp
        omega
      · exact prefixEq_trans hpre
          (prefixEq_mono (prefixEq_append (injectF kvs h).2 _ (Nat.le_refl _)) hlen)
      · exact freshOK_append hfres hok
      · show Nat.ble n (injectF kvs h).2.length = true
        simp [Nat.ble_eq]
        omega

theorem injectL_spec (n : Nat) :
    ∀ (xs : List Json) (h : PHeap), n ≤ h.length → freshOK n h →
      h.length ≤ (injectL xs h).2.length ∧
      prefixEq h.length h (injectL xs h).2 ∧
      freshOK n (injectL xs h).2 ∧
      refsOKL (fun x => Nat.ble n x) (injectL xs h).1 = true
  | [], h => fun _ hf => ⟨Nat.le_refl _, prefixEq_refl _ _, hf, rfl⟩
  | x :: rest, h => by
      intro hn hf
      obtain ⟨len1, pre1, fres1, ok1⟩ := inject_spec n x h hn hf
      obtain ⟨len2, pre2, fres2, ok2⟩ :=
        injectL_spec n rest (inject x h).2 (Nat.le_trans hn len1) fres1
      refine ⟨Nat.le_trans len1 len2, ?_, fres2, ?_⟩
      · exact prefixEq_trans pre1 (prefixEq_mono pre2 len1)
      · show (refsOK (fun x => Nat.ble n x) (inject x h).1 &&
          refsOKL (fun x => Nat.ble n x) (injectL rest (inject x h).2).1) = true
        simp [ok1, ok2]

theorem injectF_spec (n : Nat) :
    ∀ (kvs : List (String × Json)) (h : PHeap), n ≤ h.length → freshOK n h →
      h.length ≤ (injectF kvs h).2.length ∧
      prefixEq h.length h (injectF kvs h).2 ∧
      freshOK n (injectF kvs h).2 ∧
      refsOKC (fun x => Nat.ble n x) (injectF kvs h).1 = true
  | [], h => fun _ hf => ⟨Nat.le_refl _, prefixEq_refl _ _, hf, rfl⟩
  | (k, v) :: rest, h => by
      intro hn hf
      obtain ⟨len1, pre1, fres1, ok1⟩ := inject_spec n v h hn hf
      obtain ⟨len2, pre2, fres2, ok2⟩ :=
        injectF_spec n rest (inject v h).2 (Nat.le_trans hn len1) fres1
      refine ⟨Nat.le_trans len1 len2, ?_, fres2, ?_⟩
      · exact prefixEq_trans pre1 (prefixEq_mono pre2 len1)
      · show (refsOK (fun x => Nat.ble n x) (inject v h).1 &&
          refsOKC (fun x => Nat.ble n x) (injectF rest (inject v h).2).1) = true
        simp [ok1, ok2]

end

mutual

theorem readV_ext (n : Nat) :
    ∀ (fuel : Nat) (h h' : PHeap) (v : PVal), prefixEq n h h' →
      closedBelow n h → refsOK (fun x => Nat.blt x n) v = true →
      readV fuel h' v = readV fuel h v
  | 0, h, h', v => fun _ _ _ => rfl
  | fuel + 1, h, h', v => by
      intro hpre hcl hv
      cases v with
      | pnull => rfl
      | pbool b => rfl
      | pint k => rfl
      | pstr s => rfl
      | plist es =>
          show (readL fuel h' es).map Json.arr = (readL fuel h es).map Json.arr
          rw [readL_ext n fuel h h' es hpre hcl hv]
      | pref r =>
          have hr : r < n := by
            have : Nat.blt r n = true := hv
            simpa [Nat.blt_eq] using this
          simp only [readV]
          rw [hpre r hr]
          cases hc : h[r]? with
          | none => rfl
          | some c =>
              simp only [readF_ext n fuel h h' c hpre hcl (hcl r c hr hc)]

theorem readL_ext (n : Nat) :
    ∀ (fuel : Nat) (h h' : PHeap) (es : List PVal), prefixEq n h h' →
      closedBelow n h → refsOKL (fun x => Nat.blt x n) es = true →
      readL fuel h' es = readL fuel h es
  | 0, h, h', es => fun _ _ _ => rfl
  | fuel + 1, h, h', [] => fun _ _ _ => rfl
  | fuel + 1, h, h', v :: rest => by
      intro hpre hcl hv
      rw [refsOKL, Bool.and_eq_true] at hv
      simp only [readL]
      rw [readV_ext n fuel h h' v hpre hcl hv.1,
        readL_ext n fuel h h' rest hpre hcl hv.2]

theorem readF_ext (n : Nat) :
    ∀ (fuel : Nat) (h h' : PHeap) (c : Cell), prefixEq n h h' →
      closedBelow n h → refsOKC (fun x => Nat.blt x n) c = true →
      readF fuel h' c = readF fuel h c
  | 0, h, h', c => fun _ _ _ => rfl
  | fuel + 1, h, h', [] => fun _ _ _ => rfl
  | fuel + 1, h, h', (k, v) :: rest => by
      intro hpre hcl hv
      rw [refsOKC, Bool.and_eq_true] at hv
      simp only [readF]
      rw [readV_ext n fuel h h' v hpre hcl hv.1,
        readF_ext n fuel h h' rest hpre hcl hv.2]

end

mutual

/-- Frame property of `process_node` over the heap: run on a value whose
references all lie in the closed region at or above `n`, it neither reads
nor writes any cell below `n` — the heap prefix below `n` is untouched,
the region stays closed, and the returned value stays inside it. -/
theorem processNodeH_inv (n : Nat) :
    ∀ (fuel : Nat) (v : PVal) (h : PHeap) (v' : PVal) (h' : PHeap),
      n ≤ h.length → freshOK n h → refsOK (fun x => Nat.ble n x) v = true →
      processNodeH fuel v h = some (v', h') →
      n ≤ h'.length ∧ prefixEq n h h' ∧ freshOK n h' ∧
        refsOK (fun x => Nat.ble n x) v' = true
  | 0, v, h, v', h' => by
      intro _ _ _ hrun
      exact absurd hrun (by simp [processNodeH])
  | fuel + 1, v, h, v', h' => by
      intro hn hf hv hrun
      cases v with
      | pnull =>
          simp only [processNodeH, Option.some.injEq, Prod.mk.injEq] at hrun
          obtain ⟨h1, h2⟩ := hrun
          subst h1; subst h2
          exact ⟨hn, prefixEq_refl _ _, hf, hv⟩
      | pbool b =>
          simp only [processNodeH, Option.some.injEq, Prod.mk.injEq] at hrun
          obtain ⟨h1, h2⟩ := hrun
          subst h1; subst h2
          exact ⟨hn, prefixEq_refl _ _, hf, hv⟩
      | pint k =>
          simp only [processNodeH, Option.some.injEq, Prod.mk.injEq] at hrun
          obtain ⟨h1, h2⟩ := hrun
          subst h1; subst h2
          exact ⟨hn, prefixEq_refl _ _, hf, hv⟩
      | pstr s =>
          simp only [processNodeH, Option.some.injEq, Prod.mk.injEq] at hrun
          obtain ⟨h1, h2⟩ := hrun
          subst h1; subst h2
          exact ⟨hn, prefixEq_refl _ _, hf, hv⟩
      | plist es =>
          simp only [processNodeH, Option.some.injEq, Prod.mk.injEq] at hrun
          obtain ⟨h1, h2⟩ := hrun
          subst h1; subst h2
          exact ⟨hn, prefixEq_refl _ _, hf, hv⟩
      | pref r =>
          have hnr : n ≤ r := by
            have hb : Nat.ble n r = true := hv
            simpa [Nat.ble_eq] using hb
          simp only [processNodeH] at hrun
          cases hc : h[r]? with
          | none =>
              exact absurd hrun (by simp [hc])
          | some c =>
              simp only [hc] at hrun
              have hcell : refsOKC (fun x => Nat.ble n x) c = true :=
                hf r c hnr hc
              by_cases hp : isPlainWithCP c = true
              · rw [if_pos hp] at hrun
                simp only [Option.some.injEq, Prod.mk.injEq] at hrun
                obtain ⟨h1, h2⟩ := hrun
                subst h1; subst h2
                have okA : refsOKC (fun x => Nat.ble n x)
                    [("t", PVal.pstr ""), ("classes", PVal.plist []),
                      ("attributes", PVal.plist [])] = true := rfl
                have okContent : refsOK (fun x => Nat.ble n x)
                    ((getKeyP "c" c).getD .pnull) = true := by
                  cases hgc : getKeyP "c" c with
                  | none => rfl
                  | some v0 => exact getKeyP_refsOK c "c" v0 hcell hgc
                have hble : Nat.ble n h.length = true := by
                  simp [Nat.ble_eq]
                  omega
                have okS : refsOKC (fun x => Nat.ble n x)
                    [("t", PVal.pstr "Span"),
                      ("c", PVal.plist [PVal.pref h.length,
                        (getKeyP "c" c).getD .pnull])] = true := by
                  simp [refsOKC, refsOK, refsOKL, hble, okContent]
                have okNew : refsOK (fun x => Nat.ble n x)
                    (PVal.plist [PVal.pref (h ++
                      [[("t", PVal.pstr ""), ("classes", PVal.plist []),
                        ("attributes", PVal.plist [])]]).length]) = true := by
                  simp [refsOK, refsOKL, Nat.ble_eq]
                  omega
                refine ⟨?_, ?_, ?_, hv⟩
                · simp
                  omega
                · refine prefixEq_trans
                    (prefixEq_append h
                      [[("t", PVal.pstr ""), ("classes", PVal.plist []),
                        ("attributes", PVal.plist [])]] hn) ?_
                  refine prefixEq_trans
                    (prefixEq_append _
                      [[("t", PVal.pstr "Span"),
                        ("c", PVal.plist [PVal.pref h.length,
                          (getKeyP "c" c).getD PVal.pnull])]]
                      (by simp; omega)) ?_
                  exact prefixEq_set _ r _ hnr
                · exact freshOK_set (freshOK_append (freshOK_append hf okA) okS)
                    r (setKeyP_refsOK c "c" _ hcell okNew)
              · rw [if_neg hp] at hrun
                cases hpc : processCellH fuel r 0 h with
                | none =>
                    exact absurd hrun (by simp [hpc])
                | some hB =>
                    simp only [hpc] at hrun
                    simp only [Option.some.injEq, Prod.mk.injEq] at hrun
                    obtain ⟨h1, h2⟩ := hrun
                    subst h1; subst h2
                    obtain ⟨len, pre, fres⟩ :=
                      processCellH_inv n fuel r 0 h hB hn hf hnr hpc
                    exact ⟨len, pre, fres, hv⟩

/-- Frame property of the field loop of `process_node`. -/
theorem processCellH_inv (n : Nat) :
    ∀ (fuel : Nat) (r i : Nat) (h h' : PHeap),
      n ≤ h.length → freshOK n h → n ≤ r →
      processCellH fuel r i h = some h' →
      n ≤ h'.length ∧ prefixEq n h h' ∧ freshOK n h'
  | 0, r, i, h, h' => by
      intro _ _ _ hrun
      exact absurd hrun (by simp [processCellH])
  | fuel + 1, r, i, h, h' => by
      intro hn hf hnr hrun
      simp only [processCellH] at hrun
      cases hc : h[r]? with
      | none =>
          exact absurd hrun (by simp [hc])
      | some c =>
          simp only [hc] at hrun
          have hcell : refsOKC (fun x => Nat.ble n x) c = true := hf r c hnr hc
          by_cases hi : i < c.length
          · rw [dif_pos hi] at hrun
            have hkvok : refsOK (fun x => Nat.ble n x) (c.get ⟨i, hi⟩).2 = true :=
              refsOKC_get c hcell ⟨i, hi⟩
            cases hkv : (c.get ⟨i, hi⟩).2 with
            | pref r2 =>
                simp only [hkv] at hrun hkvok
                cases hpn : processNodeH fuel (.pref r2) h with
                | none =>
                    exact absurd hrun (by simp [hpn])
                | some p =>
                    obtain ⟨v1, hA⟩ := p
                    simp only [hpn] at hrun
                    obtain ⟨lenA, preA, fresA, okv1⟩ :=
                      processNodeH_inv n fuel (.pref r2) h v1 hA hn hf hkvok hpn
                    cases hc1 : hA[r]? with
                    | none =>
                        exact absurd hrun (by simp [hc1])
                    | some c1 =>
                        simp only [hc1] at hrun
                        have hc1ok : refsOKC (fun x => Nat.ble n x) c1 = true :=
                          fresA r c1 hnr hc1
                        obtain ⟨lenB, preB, fresB⟩ :=
                          processCellH_inv n fuel r (i + 1)
                            (hA.set r (setKeyP (c.get ⟨i, hi⟩).1 v1 c1)) h'
                            (by simpa using lenA)
                            (freshOK_set fresA r
                              (setKeyP_refsOK c1 _ v1 hc1ok okv1))
                            hnr hrun
                        exact ⟨lenB,
                          prefixEq_trans preA
                            (prefixEq_trans (prefixEq_set hA r _ hnr) preB),
                          fresB⟩
            | plist items =>
                simp only [hkv] at hrun hkvok
                cases hpi : processItemsH fuel items h with
                | none =>
                    exact absurd hrun (by simp [hpi])
                | some p =>
                    obtain ⟨items1, hA⟩ := p
                    simp only [hpi] at hrun
                    obtain ⟨lenA, preA, fresA, okitems1⟩ :=
                      processItemsH_inv n fuel items h items1 hA hn hf hkvok hpi
                    cases hc1 : hA[r]? with
                    | none =>
                        exact absurd hrun (by simp [hc1])
                    | some c1 =>
                        simp only [hc1] at hrun
                        have hc1ok : refsOKC (fun x => Nat.ble n x) c1 = true :=
                          fresA r c1 hnr hc1
                        obtain ⟨lenB, preB, fresB⟩ :=
                          processCellH_inv n fuel r (i + 1)
                            (hA.set r (setKeyP (c.get ⟨i, hi⟩).1
                              (.plist items1) c1)) h'
                            (by simpa using lenA)
                            (freshOK_set fresA r
                              (setKeyP_refsOK c1 _ (.plist items1) hc1ok okitems1))
                            hnr hrun
                        exact ⟨lenB,
                          prefixEq_trans preA
                            (prefixEq_trans (prefixEq_set hA r _ hnr) preB),
                          fresB⟩
            | pnull =>
                simp only [hkv] at hrun
                exact processCellH_inv n fuel r (i + 1) h h' hn hf hnr hrun
            | pbool b =>
                simp only [hkv] at hrun
                exact processCellH_inv n fuel r (i + 1) h h' hn hf hnr hrun
            | pint k =>
                simp only [hkv] at hrun
                exact processCellH_inv n fuel r (i + 1) h h' hn hf hnr hrun
            | pstr s =>
                simp only [hkv] at hrun
                exact processCellH_inv n fuel r (i + 1) h h' hn hf hnr hrun
          · rw [dif_neg hi] at hrun
            injection hrun with hh
            subst hh
            exact ⟨hn, prefixEq_refl _ _, hf⟩

/-- Frame property of the outer comprehension of `process_node`. -/
theorem processItemsH_inv (n : Nat) :
    ∀ (fuel : Nat) (es : List PVal) (h : PHeap) (es' : List PVal) (h' : PHeap),
      n ≤ h.length → freshOK n h →
      refsOKL (fun x => Nat.ble n x) es = true →
      processItemsH fuel es h = some (es', h') →
      n ≤ h'.length ∧ prefixEq n h h' ∧ freshOK n h' ∧
        refsOKL (fun x => Nat.ble n x) es' = true
  | 0, es, h, es', h' => by
      intro _ _ _ hrun
      exact absurd hrun (by simp [processItemsH])
  | fuel + 1, [], h, es', h' => by
      intro hn hf _ hrun
      simp only [processItemsH, Option.some.injEq, Prod.mk.injEq] at hrun
      obtain ⟨h1, h2⟩ := hrun
      subst h1; subst h2
      exact ⟨hn, prefixEq_refl _ _, hf, rfl⟩
  | fuel + 1, it :: rest, h, es', h' => by
      intro hn hf hok hrun
      rw [refsOKL, Bool.and_eq_true] at hok
      simp only [processItemsH] at hrun
      cases hit : processItemH fuel it h with
      | none =>
          exact absurd hrun (by simp [hit])
      | some p =>
          obtain ⟨it1, hA⟩ := p
          simp only [hit] at hrun
          obtain ⟨lenA, preA, fresA, okit1⟩ :=
            processItemH_inv n fuel it h it1 hA hn hf hok.1 hit
          cases hrest : processItemsH fuel rest hA with
          | none =>
              exact absurd hrun (by simp [hrest])
          | some q =>
              obtain ⟨rest1, hB⟩ := q
              simp only [hrest] at hrun
              simp only [Option.some.injEq, Prod.mk.injEq] at hrun
              obtain ⟨h1, h2⟩ := hrun
              subst h1; subst h2
              obtain ⟨lenB, preB, fresB, okrest1⟩ :=
                processItemsH_inv n fuel rest hA rest1 hB lenA fresA hok.2 hrest
              refine ⟨lenB, prefixEq_trans preA preB, fresB, ?_⟩
              rw [refsOKL, Bool.and_eq_true]
              exact ⟨okit1, okrest1⟩

/-- Frame property of the per-item dispatch. -/
theorem processItemH_inv (n : Nat) :
    ∀ (fuel : Nat) (v : PVal) (h : PHeap) (v' : PVal) (h' : PHeap),
      n ≤ h.length → freshOK n h → refsOK (fun x => Nat.ble n x) v = true →
      processItemH fuel v h = some (v', h') →
      n ≤ h'.length ∧ prefixEq n h h' ∧ freshOK n h' ∧
        refsOK (fun x => Nat.ble n x) v' = true
  | 0, v, h, v', h' => by
      intro _ _ _ hrun
      exact absurd hrun (by simp [processItemH])
  | fuel + 1, .pref r, h, v', h' => by
      intro hn hf hv hrun
      exact processNodeH_inv n fuel (.pref r) h v' h' hn hf hv hrun
  | fuel + 1, .plist subs, h, v', h' => by
      intro hn hf hv hrun
      simp only [processItemH] at hrun
      cases hs : processSubsH fuel subs h with
      | none =>
          exact absurd hrun (by simp [hs])
      | some p =>
          obtain ⟨subs1, hA⟩ := p
          rw [hs] at hrun
          simp only [Option.some.injEq, Prod.mk.injEq] at hrun
          obtain ⟨h1, h2⟩ := hrun
          subst h1; subst h2
          obtain ⟨lenA, preA, fresA, oksubs⟩ :=
            processSubsH_inv n fuel subs h subs1 hA hn hf hv hs
          exact ⟨lenA, preA, fresA, oksubs⟩
  | fuel + 1, .pnull, h, v', h' => by
      intro hn hf hv hrun
      simp only [processItemH, Option.some.injEq, Prod.mk.injEq] at hrun
      obtain ⟨h1, h2⟩ := hrun
      subst h1; subst h2
      exact ⟨hn, prefixEq_refl _ _, hf, hv⟩
  | fuel + 1, .pbool b, h, v', h' => by
      intro hn hf hv hrun
      simp only [processItemH, Option.some.injEq, Prod.mk.injEq] at hrun
      obtain ⟨h1, h2⟩ := hrun
      subst h1; subst h2
      exact ⟨hn, prefixEq_refl _ _, hf, hv⟩
  | fuel + 1, .pint k, h, v', h' => by
      intro hn hf hv hrun
      simp only [processItemH, Option.some.injEq, Prod.mk.injEq] at hrun
      obtain ⟨h1, h2⟩ := hrun
      subst h1; subst h2
      exact ⟨hn, prefixEq_refl _ _, hf, hv⟩
  | fuel + 1, .pstr s, h, v', h' => by
      intro hn hf hv hrun
      simp only [processItemH, Option.some.injEq, Prod.mk.injEq] at hrun
      obtain ⟨h1, h2⟩ := hrun
      subst h1; subst h2
      exact ⟨hn, prefixEq_refl _ _, hf, hv⟩

/-- Frame property of the inner comprehension of `process_node`. -/
theorem processSubsH_inv (n : Nat) :
    ∀ (fuel : Nat) (es : List PVal) (h : PHeap) (es' : List PVal) (h' : PHeap),
      n ≤ h.length → freshOK n h →
      refsOKL (fun x => Nat.ble n x) es = true →
      processSubsH fuel es h = some (es', h') →
      n ≤ h'.length ∧ prefixEq n h h' ∧ freshOK n h' ∧
        refsOKL (fun x => Nat.ble n x) es' = true
  | 0, es, h, es', h' => by
      intro _ _ _ hrun
      exact absurd hrun (by simp [processSubsH])
  | fuel + 1, [], h, es', h' => by
      intro hn hf _ hrun
      simp only [processSubsH, Option.some.injEq, Prod.mk.injEq] at hrun
      obtain ⟨h1, h2⟩ := hrun
      subst h1; subst h2
      exact ⟨hn, prefixEq_refl _ _, hf, rfl⟩
  | fuel + 1, sub :: rest, h, es', h' => by
      intro hn hf hok hrun
      rw [refsOKL, Bool.and_eq_true] at hok
      simp only [processSubsH] at hrun
      cases hd : processSubH fuel sub h with
      | none =>
          exact absurd hrun (by simp [hd])
      | some p =>
          obtain ⟨sub1, hA⟩ := p
          simp only [hd] at hrun
          obtain ⟨lenA, preA, fresA, oksub1⟩ :=
            processSubH_inv n fuel sub h sub1 hA hn hf hok.1 hd
          cases hrest : processSubsH fuel rest hA with
          | none =>
              exact absurd hrun (by simp [hrest])
          | some q =>
              obtain ⟨rest1, hB⟩ := q
              simp only [hrest] at hrun
              simp only [Option.some.injEq, Prod.mk.injEq] at hrun
              obtain ⟨h1, h2⟩ := hrun
              subst h1; subst h2
              obtain ⟨lenB, preB, fresB, okrest1⟩ :=
                processSubsH_inv n fuel rest hA rest1 hB lenA fresA hok.2 hrest
              refine ⟨lenB, prefixEq_trans preA preB, fresB, ?_⟩
              rw [refsOKL, Bool.and_eq_true]
              exact ⟨oksub1, okrest1⟩

/-- Frame property of the per-subitem dispatch. -/
theorem processSubH_inv (n : Nat) :
    ∀ (fuel : Nat) (v : PVal) (h : PHeap) (v' : PVal) (h' : PHeap),
      n ≤ h.length → freshOK n h → refsOK (fun x => Nat.ble n x) v = true →
      processSubH fuel v h = some (v', h') →
      n ≤ h'.length ∧ prefixEq n h h' ∧ freshOK n h' ∧
        refsOK (fun x => Nat.ble n x) v' = true
  | 0, v, h, v', h' => by
      intro _ _ _ hrun
      exact absurd hrun (by simp [processSubH])
  | fuel + 1, .pref r, h, v', h' => by
      intro hn hf hv hrun
      exact processNodeH_inv n fuel (.pref r) h v' h' hn hf hv hrun
  | fuel + 1, .pnull, h, v', h' => by
      intro hn hf hv hrun
      simp only [processSubH, Option.some.injEq, Prod.mk.injEq] at hrun
      obtain ⟨h1, h2⟩ := hrun
      subst h1; subst h2
      exact ⟨hn, prefixEq_refl _ _, hf, hv⟩
  | fuel + 1, .pbool b, h, v', h' => by
      intro hn hf hv hrun
      simp only [processSubH, Option.some.injEq, Prod.mk.injEq] at hrun
      obtain ⟨h1, h2⟩ := hrun
      subst h1; subst h2
      exact ⟨hn, prefixEq_refl _ _, hf, hv⟩
  | fuel + 1, .pint k, h, v', h' => by
      intro hn hf hv hrun
      simp only [processSubH, Option.some.injEq, Prod.mk.injEq] at hrun
      obtain ⟨h1, h2⟩ := hrun
      subst h1; subst h2
      exact ⟨hn, prefixEq_refl _ _, hf, hv⟩
  | fuel + 1, .pstr s, h, v', h' => by
      intro hn hf hv hrun
      simp only [processSubH, Option.some.injEq, Prod.mk.injEq] at hrun
      obtain ⟨h1, h2⟩ := hrun
      subst h1; subst h2
      exact ⟨hn, prefixEq_refl _ _, hf, hv⟩
  | fuel + 1, .plist es2, h, v', h' => by
      intro hn hf hv hrun
      simp only [processSubH, Option.some.injEq, Prod.mk.injEq] at hrun
      obtain ⟨h1, h2⟩ := hrun
      subst h1; subst h2
      exact ⟨hn, prefixEq_refl _ _, hf, hv⟩

end

/-- Frame property of the `"blocks"` loop of `modify_json_add_spans`. -/
theorem processBlocksH_inv (n : Nat) :
    ∀ (fuel : Nat) (es : List PVal) (h : PHeap) (es' : List PVal) (h' : PHeap),
      n ≤ h.length → freshOK n h →
      refsOKL (fun x => Nat.ble n x) es = true →
      processBlocksH fuel es h = some (es', h') →
      n ≤ h'.length ∧ prefixEq n h h' ∧ freshOK n h' ∧
        refsOKL (fun x => Nat.ble n x) es' = true
  | 0, es, h, es', h' => by
      intro _ _ _ hrun
      exact absurd hrun (by simp [processBlocksH])
  | fuel + 1, [], h, es', h' => by
      intro hn hf _ hrun
      simp only [processBlocksH, Option.some.injEq, Prod.mk.injEq] at hrun
      obtain ⟨h1, h2⟩ := hrun
      subst h1; subst h2
      exact ⟨hn, prefixEq_refl _ _, hf, rfl⟩
  | fuel + 1, b :: rest, h, es', h' => by
      intro hn hf hok hrun
      rw [refsOKL, Bool.and_eq_true] at hok
      simp only [processBlocksH] at hrun
      cases hb : processNodeH fuel b h with
      | none =>
          exact absurd hrun (by simp [hb])
      | some p =>
          obtain ⟨b1, hA⟩ := p
          simp only [hb] at hrun
          obtain ⟨lenA, preA, fresA, okb1⟩ :=
            processNodeH_inv n fuel b h b1 hA hn hf hok.1 hb
          cases hrest : processBlocksH fuel rest hA with
          | none =>
              exact absurd hrun (by simp [hrest])
          | some q =>
              obtain ⟨rest1, hB⟩ := q
              simp only [hrest] at hrun
              simp only [Option.some.injEq, Prod.mk.injEq] at hrun
              obtain ⟨h1, h2⟩ := hrun
              subst h1; subst h2
              obtain ⟨lenB, preB, fresB, okrest1⟩ :=
                processBlocksH_inv n fuel rest hA rest1 hB lenA fresA hok.2 hrest
              refine ⟨lenB, prefixEq_trans preA preB, fresB, ?_⟩
              rw [refsOKL, Bool.and_eq_true]
              exact ⟨okb1, okrest1⟩

theorem closedBelow_of_wf {h : PHeap} (hwf : wfHeapB h = true) :
    closedBelow h.length h := by
  intro r c hr hc
  obtain ⟨hlt, he⟩ := List.getElem?_eq_some.mp hc
  have hmem : c ∈ h := he ▸ List.getElem_mem hlt
  have hall := List.all_eq_true.mp hwf
  exact hall c hmem

/-- C9: `modify_json_add_spans` leaves its argument unmodified — it works
on a deep copy, mutating and allocating only at or above the original
heap's frontier, so reading the caller's tree back out of the final heap
gives exactly the tree it held before the call (first conjunct, for every
well-formed heap and every read fuel); whereas `add_spans_to_json` mutates
its argument's mappings in place: run on a reference to `{"c": []}`, the
very same reference afterwards reads back with its content wrapped
(second and third conjuncts). -/
theorem C9_modify_preserves_argument (fuel : Nat) (v v' : PVal)
    (h h' : PHeap) (hwf : wfHeapB h = true)
    (hv : refsOK (fun x => Nat.blt x h.length) v = true)
    (hrun : modifyH fuel v h = some (v', h')) :
    (∀ f2, readV f2 h' v = readV f2 h v) ∧
    ((addSpansH 10 (.pref 0) [[("c", PVal.plist [])]]).map
        (fun p => readV 30 p.2 (.pref 0)) =
      some (some (.obj [("c", .arr [mkSpan (.arr [])])]))) ∧
    readV 30 [[("c", PVal.plist [])]] (.pref 0) =
      some (.obj [("c", .arr [])]) := by
  refine ⟨?_, by decide, by decide⟩
  cases fuel with
  | zero => exact absurd hrun (by simp [modifyH])
  | succ fuel =>
      simp only [modifyH] at hrun
      cases hrd : readV fuel h v with
      | none => exact absurd hrun (by simp [hrd])
      | some j =>
          simp only [hrd] at hrun
          obtain ⟨len1, pre1, fres1, ok1⟩ :=
            inject_spec h.length j h (Nat.le_refl _)
              (freshOK_of_length_le (Nat.le_refl _))
          cases hinj : (inject j h).1 with
          | pnull => exact absurd hrun (by simp [hinj])
          | pbool b => exact absurd hrun (by simp [hinj])
          | pint k => exact absurd hrun (by simp [hinj])
          | pstr s => exact absurd hrun (by simp [hinj])
          | plist es => exact absurd hrun (by simp [hinj])
          | pref r =>
              simp only [hinj] at hrun
              rw [hinj] at ok1
              have hnr : h.length ≤ r := by
                have hb : Nat.ble h.length r = true := ok1
                simpa [Nat.ble_eq] using hb
              cases hcr : (inject j h).2[r]? with
              | none => exact absurd hrun (by simp [hcr])
              | some c =>
                  simp only [hcr] at hrun
                  have cok : refsOKC (fun x => Nat.ble h.length x) c = true :=
                    fres1 r c hnr hcr
                  cases hgb : getKeyP "blocks" c with
                  | none => exact absurd hrun (by simp [hgb])
                  | some vb =>
                      cases vb with
                      | pnull => exact absurd hrun (by simp [hgb])
                      | pbool b2 => exact absurd hrun (by simp [hgb])
                      | pint k2 => exact absurd hrun (by simp [hgb])
                      | pstr s2 => exact absurd hrun (by simp [hgb])
                      | pref r2 => exact absurd hrun (by simp [hgb])
                      | plist blocks =>
                          simp only [hgb] at hrun
                          have blocksok : refsOKL
                              (fun x => Nat.ble h.length x) blocks = true :=
                            getKeyP_refsOK c "blocks" (.plist blocks) cok hgb
                          cases hpb : processBlocksH fuel blocks (inject j h).2 with
                          | none => exact absurd hrun (by simp [hpb])
                          | some p =>
                              obtain ⟨blocks1, h2⟩ := p
                              simp only [hpb] at hrun
                              obtain ⟨len2, pre2, fres2, okb1⟩ :=
                                processBlocksH_inv h.length fuel blocks
                                  (inject j h).2 blocks1 h2 len1 fres1
                                  blocksok hpb
                              cases hc2 : h2[r]? with
                              | none => exact absurd hrun (by simp [hc2])
                              | some c2 =>
                                  simp only [hc2, Option.some.injEq,
                                    Prod.mk.injEq] at hrun
                                  obtain ⟨h1x, h2x⟩ := hrun
                                  subst h1x; subst h2x
                                  intro f2
                                  refine readV_ext h.length f2 h _ v ?_
                                    (closedBelow_of_wf hwf) hv
                                  refine prefixEq_trans pre1
                                    (prefixEq_trans pre2 ?_)
                                  exact prefixEq_set h2 r _ hnr

/-- C9 witness: a one-cell heap holding `{"blocks": []}`; after
`modify_json_add_spans` the caller's cell reads back unchanged. -/
theorem C9_witness :
    readV 5 [[("blocks", PVal.plist [])], [("blocks", PVal.plist [])]]
        (.pref 0) =
      readV 5 [[("blocks", PVal.plist [])]] (.pref 0) :=
  (C9_modify_preserves_argument 12 (.pref 0) (.pref 1)
    [[("blocks", PVal.plist [])]]
    [[("blocks", PVal.plist [])], [("blocks", PVal.plist [])]]
    (by decide) (by decide) (by rfl)).1 5

end Pandoc
